import Mathlib

/-
Verification of the graphql-page-analyzer pipeline.

The development shallowly embeds the pipeline of the repository: the
file scanner (findGraphQLFiles), the grouper (groupFilesByPagesFolder),
the remote analysis client (generateContent / analyzePageGraphQL with
its code-fence stripping and JSON post-processing), and the orchestrator
(analyzeGroupedFiles plus the top-level main).  External platform
behaviour (the filesystem, fetch, JSON.parse) is modelled explicitly:
the filesystem as an inductive tree, an HTTP exchange as a record
carrying the status and the parsed body, and JSON.parse as a parameter
returning either a value or a parse-error message.  JavaScript runtime
values reachable from JSON.parse are modelled by the JsValue type, with
property access throwing exactly on undefined and null receivers, as in
the JavaScript semantics the source relies on.
-/

namespace GPA

/-- JavaScript values reachable in the analyzer: the results of
JSON.parse (null, booleans, numbers, strings, arrays, objects) together
with the undefined value produced by missing-property access.  JSON
numbers are modelled as integers. -/
inductive JsValue where
  | undef
  | null
  | bool (b : Bool)
  | num (n : Int)
  | str (s : String)
  | arr (elems : List JsValue)
  | obj (fields : List (String × JsValue))

/-- First-match lookup of a field in an object literal, as in a
JavaScript object (JSON.parse never yields duplicate keys). -/
def lookupField : List (String × JsValue) → String → Option JsValue
  | [], _ => none
  | (k, v) :: rest, p => if k = p then some v else lookupField rest p

/-- Message of the TypeError raised when reading a property of
undefined or null. -/
def typeErrorRead (p : String) (kind : String) : String :=
  "TypeError: cannot read properties of " ++ kind ++ " (reading " ++ p ++ ")"

/-- JavaScript property access v.p on the modelled values: throws on
undefined and null receivers; strings and arrays expose their length;
objects look their fields up, yielding undefined when absent; other
primitives yield undefined. -/
def getProp : JsValue → String → Except String JsValue
  | .undef, p => .error (typeErrorRead p "undefined")
  | .null, p => .error (typeErrorRead p "null")
  | .bool _, _ => .ok .undef
  | .num _, _ => .ok .undef
  | .str s, p => if p = "length" then .ok (.num (s.length : Int)) else .ok .undef
  | .arr l, p => if p = "length" then .ok (.num (l.length : Int)) else .ok .undef
  | .obj fs, p => .ok ((lookupField fs p).getD .undef)

/-- JavaScript indexed access v[i]: throws on undefined and null;
arrays yield the element or undefined past the end; strings yield the
one-character string at the index; objects look up the stringified
index; other primitives yield undefined. -/
def getIndex : JsValue → Nat → Except String JsValue
  | .undef, i => .error (typeErrorRead (toString i) "undefined")
  | .null, i => .error (typeErrorRead (toString i) "null")
  | .bool _, _ => .ok .undef
  | .num _, _ => .ok .undef
  | .str s, i =>
      .ok (match (s.data.drop i).head? with
           | some c => .str (String.mk [c])
           | none => .undef)
  | .arr l, i => .ok (l.getD i .undef)
  | .obj fs, i => .ok ((lookupField fs (toString i)).getD .undef)

/-- JavaScript comparison v > 0 as used on the length values read by
the analyzer: precise on numbers, booleans, null and undefined (the
values the claims exercise); the ToPrimitive coercions of strings,
arrays and objects are not modelled and yield false here — no theorem
below depends on those branches. -/
def jsGtZero : JsValue → Bool
  | .num n => decide (0 < n)
  | .bool b => b
  | _ => false

/-- The opening code fence removed by the first anchored replace in
analyzePageGraphQL (three backticks, the word json, a newline). -/
def fenceOpen : String := "```json\n"

/-- The closing code fence removed by the second anchored replace (a
newline then three backticks). -/
def fenceClose : String := "\n```"

/-- Embeds the first replace in analyzePageGraphQL: the anchored
pattern removes one leading fence line when present and otherwise
leaves the text unchanged. -/
def stripLeadFence (s : String) : String :=
  if fenceOpen.data.isPrefixOf s.data then
    String.mk (s.data.drop fenceOpen.data.length)
  else s

/-- Embeds the second replace in analyzePageGraphQL: the anchored
pattern removes one trailing fence when present and otherwise leaves
the text unchanged. -/
def stripTrailFence (s : String) : String :=
  if fenceClose.data.isSuffixOf s.data then
    String.mk (s.data.take (s.data.length - fenceClose.data.length))
  else s

/-- The two chained replaces applied to the reply text before
JSON.parse, from analyzePageGraphQL. -/
def cleanResponse (s : String) : String := stripTrailFence (stripLeadFence s)

/-- A reply text wrapped in the json code fences the client strips. -/
def fenceWrap (j : String) : String := fenceOpen ++ j ++ fenceClose

/-- One HTTP exchange with the chat-completion endpoint as generateContent
observes it: the ok flag of the status, the statusText, and the outcome
of parsing the body as JSON (response.json may itself fail). -/
structure HttpResponse where
  ok : Bool
  statusText : String
  jsonBody : Except String JsValue

/-- Embeds generateContent: on a non-ok status it throws an error built
from the status text alone; otherwise it propagates the outcome of
response.json, returning the parsed body (from which the reply text is
extracted lazily by the text thunk). -/
def generateContent (resp : HttpResponse) : Except String JsValue :=
  if resp.ok then resp.jsonBody
  else .error ("API call failed: " ++ resp.statusText)

/-- Embeds the text thunk of generateContent, evaluated when the caller
invokes text(): the unvalidated extraction data.choices[0].message.content. -/
def textOf (data : JsValue) : Except String JsValue := do
  let cs ← getProp data "choices"
  let c0 ← getIndex cs 0
  let msg ← getProp c0 "message"
  getProp msg "content"

/-- The reply text an analyzePageGraphQL call observes for a given HTTP
exchange: generateContent followed by the text extraction. -/
def replyTextOf (resp : HttpResponse) : Except String JsValue := do
  textOf (← generateContent resp)

/-- A per-item record pushed into the aggregated results: either the
success shape with page, analysis, queryCount and mutationCount, or the
error shape with page and the caught error message. -/
inductive PageResult where
  | success (page : String) (analysis : JsValue) (queryCount mutationCount : JsValue)
  | failure (page : String) (error : String)

/-- The page identifier carried by a result record. -/
def PageResult.page : PageResult → String
  | .success p _ _ _ => p
  | .failure p _ => p

/-- Whether a result record is the error-tagged shape. -/
def PageResult.isErrorRecord : PageResult → Bool
  | .success _ _ _ _ => false
  | .failure _ _ => true

/-- Embeds the forEach logging callback of analyzePageGraphQL: each
element has its name property read for the console template, which
throws when the element is null (or undefined). -/
def logEachName : List JsValue → Except String Unit
  | [] => .ok ()
  | e :: es => do
      let _ ← getProp e "name"
      logEachName es

/-- Embeds the call v.forEach of the logging block: only arrays carry
the forEach method among the modelled values, so any other receiver
throws. -/
def forEachLog : JsValue → Except String Unit
  | .arr l => logEachName l
  | _ => .error "TypeError: forEach is not a function"

/-- Embeds the body of the try block of analyzePageGraphQL after a
successful JSON.parse: read analysis.queries.length (logging the names
when positive), then analysis.mutations.length likewise, and build the
success record carrying the two length values; any thrown TypeError is
converted by the catch into the error record for the page. -/
def finishAnalysis (pageName : String) (analysis : JsValue) : PageResult :=
  match (do
      let q ← getProp analysis "queries"
      let qlen ← getProp q "length"
      if jsGtZero qlen then forEachLog q else pure ()
      let m ← getProp analysis "mutations"
      let mlen ← getProp m "length"
      if jsGtZero mlen then forEachLog m else pure ()
      pure (qlen, mlen) : Except String (JsValue × JsValue)) with
  | .error e => PageResult.failure pageName e
  | .ok (qlen, mlen) => PageResult.success pageName analysis qlen mlen

/-- Embeds analyzePageGraphQL for one item: obtain the reply text (any
throw from generateContent or the extraction is caught into the error
record), strip the fences, JSON.parse the remainder (a parse error is
caught into the error record), then run the post-parse body.  The
parseJson parameter stands for the JSON.parse builtin. -/
def analyzePageGraphQL (parseJson : String → Except String JsValue)
    (resp : HttpResponse) (pageName : String) : PageResult :=
  match replyTextOf resp with
  | .error e => PageResult.failure pageName e
  | .ok (.str t) =>
      (match parseJson (cleanResponse t) with
       | .error e => PageResult.failure pageName e
       | .ok analysis => finishAnalysis pageName analysis)
  | .ok JsValue.undef => PageResult.failure pageName (typeErrorRead "replace" "undefined")
  | .ok JsValue.null => PageResult.failure pageName (typeErrorRead "replace" "null")
  | .ok _ => PageResult.failure pageName "TypeError: replace is not a function"

/-- The first marker substring of findGraphQLFiles (a gql tagged
template opener). -/
def markerGql : String := "gql`"

/-- The second marker substring of findGraphQLFiles (a graphql tagged
template opener). -/
def markerGraphql : String := "graphql`"

/-- Does a character list contain the pattern as a contiguous
subsequence, embedding the JS String.prototype.includes test. -/
def strContainsAux (pat : List Char) : List Char → Bool
  | [] => pat.isPrefixOf ([] : List Char)
  | c :: cs => pat.isPrefixOf (c :: cs) || strContainsAux pat cs

/-- JS content.includes(pat) on the modelled strings. -/
def strContains (s pat : String) : Bool := strContainsAux pat.data s.data

/-- Embeds the extension test of findGraphQLFiles: the anchored
alternation matches exactly the names ending in one of the four
recognized source extensions. -/
def hasValidExt (name : String) : Bool :=
  name.endsWith ".js" || name.endsWith ".jsx" ||
    name.endsWith ".ts" || name.endsWith ".tsx"

/-- A file qualifies for the scanner result when its name passes the
extension test and its content contains one of the two markers. -/
def qualifiesFile (name content : String) : Bool :=
  hasValidExt name && (strContains content markerGql || strContains content markerGraphql)

mutual
/-- A filesystem tree entry as the scanner traverses it: a regular file
with its text content, or a directory with its entries. -/
inductive FSEntry where
  | file (name content : String)
  | dir (name : String) (entries : FSEntries)

/-- The ordered entries of a directory, in readdir order. -/
inductive FSEntries where
  | nil
  | cons (e : FSEntry) (es : FSEntries)
end

/-- Embeds path.join for a directory path and a plain entry name. -/
def pathJoin (p n : String) : String := p ++ "/" ++ n

mutual
/-- Embeds the body of processDirectory in findGraphQLFiles for one
entry: directories are recursed into, files are kept when they qualify. -/
def findInEntry (currentPath : String) : FSEntry → List String
  | .file n c => if qualifiesFile n c then [pathJoin currentPath n] else []
  | .dir n es => findInEntries (pathJoin currentPath n) es

/-- Embeds the entry loop of processDirectory over a directory listing. -/
def findInEntries (currentPath : String) : FSEntries → List String
  | .nil => []
  | .cons e es => findInEntry currentPath e ++ findInEntries currentPath es
end

/-- Embeds findGraphQLFiles: traverse the tree under the root and
collect the qualifying paths in traversal order. -/
def findGraphQLFiles (dirPath : String) (entries : FSEntries) : List String :=
  findInEntries dirPath entries

/-- One file of the scanned tree: its joined path, its entry name and
its text content. -/
structure SrcFile where
  path : String
  name : String
  content : String

mutual
/-- Every file under one entry, with its path, in traversal order. -/
def allInEntry (currentPath : String) : FSEntry → List SrcFile
  | .file n c => [⟨pathJoin currentPath n, n, c⟩]
  | .dir n es => allInEntries (pathJoin currentPath n) es

/-- Every file under a directory listing, in traversal order. -/
def allInEntries (currentPath : String) : FSEntries → List SrcFile
  | .nil => []
  | .cons e es => allInEntry currentPath e ++ allInEntries currentPath es
end

/-- Every file of the scanned tree, in the traversal order of
findGraphQLFiles. -/
def allFiles (dirPath : String) (entries : FSEntries) : List SrcFile :=
  allInEntries dirPath entries

/-- Embeds path.relative of Node for already-resolved, normalized
paths, represented as their separator-split segment lists: drop the
common leading segments, then one double-dot per remaining segment of
the origin followed by the remaining segments of the target. -/
def relativeSegs : List String → List String → List String
  | [], t => t
  | _ :: fs, [] => List.replicate (fs.length + 1) ".."
  | f :: fs, t :: ts =>
      if f = t then relativeSegs fs ts
      else List.replicate (fs.length + 1) ".." ++ (t :: ts)

/-- Embeds the group key of groupFilesByPagesFolder: the first segment
of the path of the file relative to the pages root (the empty string
when the relative path is empty, as splitting the empty JS string
yields one empty segment). -/
def groupKey (pagesPath : List String) (file : List String) : String :=
  (relativeSegs pagesPath file).headD ""

/-- Embeds one iteration of the grouping loop: append the file to the
sequence of its key when the key is present (JS Map get and push), else
add the key at the end with the one-file sequence (JS Map set preserves
insertion order). -/
def insertGroup (m : List (String × List (List String))) (k : String) (f : List String) :
    List (String × List (List String)) :=
  match m with
  | [] => [(k, [f])]
  | (k₀, g) :: rest => if k₀ = k then (k₀, g ++ [f]) :: rest else (k₀, g) :: insertGroup rest k f

/-- Embeds groupFilesByPagesFolder: fold the grouping loop over the
file list, starting from the empty map. -/
def groupFilesByPagesFolder (files : List (List String)) (pagesPath : List String) :
    List (String × List (List String)) :=
  files.foldl (fun m f => insertGroup m (groupKey pagesPath f) f) []

/-- The keys of a list, keeping the first occurrence of each and the
first-occurrence order. -/
def firstKeys : List String → List String
  | [] => []
  | k :: ks => k :: (firstKeys ks).filter (fun a => a != k)

/-- The closed form the grouping fold is proved equal to: one entry per
distinct key in first-encounter order, carrying the input files with
that key in input order. -/
def canonicalGroups (files : List (List String)) (pagesPath : List String) :
    List (String × List (List String)) :=
  (firstKeys (files.map (groupKey pagesPath))).map
    (fun k => (k, files.filter (fun f => groupKey pagesPath f == k)))

/-- The concatenation of the sequences of a grouping, group by group. -/
def flattenGroups {F : Type} (m : List (String × List F)) : List F :=
  (m.map Prod.snd).flatten

/-- Observable effects of the orchestration loop: one remote-client
invocation per item, and the fixed delays between items. -/
inductive Event where
  | callEv (page : String)
  | delayEv (ms : Nat)

/-- Embeds the loop body of analyzeGroupedFiles over the remaining
entries, with the full entry list fixed for the indexOf test of the
delay condition: analyze the item, then delay 10000 ms unless the key
sits at the last index of the key list. -/
def analyzeGroupedFilesAux {F : Type} (analyze : String → List F → PageResult)
    (all : List (String × List F)) :
    List (String × List F) → List PageResult × List Event
  | [] => ([], [])
  | (k, fs) :: rest =>
      let r := analyze k fs
      let evs := if (all.map Prod.fst).indexOf k < all.length - 1 then
        [Event.delayEv 10000] else []
      let tail := analyzeGroupedFilesAux analyze all rest
      (r :: tail.1, Event.callEv k :: (evs ++ tail.2))

/-- Embeds analyzeGroupedFiles: run the loop over the entries of the
grouped files, returning the pushed results and the effect trace. -/
def analyzeGroupedFiles {F : Type} (analyze : String → List F → PageResult)
    (groups : List (String × List F)) : List PageResult × List Event :=
  analyzeGroupedFilesAux analyze groups groups

/-- The observable outcome of one run of the top-level main: the
aggregated per-item results and the contents written to the output
file, one list entry per write. -/
structure RunOutput where
  results : List PageResult
  written : List (List PageResult)

/-- Embeds the post-scan part of main: analyze the grouped files, then
write the aggregated results once, at the end of the run. -/
def mainRun {F : Type} (analyze : String → List F → PageResult)
    (groups : List (String × List F)) : RunOutput :=
  let results := (analyzeGroupedFiles analyze groups).1
  ⟨results, [results]⟩

/-- A toy concrete JSON.parse instance used to witness the round-trip. -/
def toyParse (s : String) : Except String JsValue :=
  if s = "null" then Except.ok JsValue.null else Except.error "invalid JSON"

/-- A chat-completion body with the expected shape, carrying the given
content value in the first choice. -/
def chatBody (content : JsValue) : JsValue :=
  JsValue.obj [("choices", JsValue.arr
    [JsValue.obj [("message", JsValue.obj [("content", content)])]])]

/-- Whether an event is a remote-client invocation. -/
def Event.isCall : Event → Bool
  | .callEv _ => true
  | .delayEv _ => false

/-- Whether an event is an inter-call delay. -/
def Event.isDelay : Event → Bool
  | .callEv _ => false
  | .delayEv _ => true

/-- Three concrete groups for the orchestrator scenario of the spec. -/
def demoGroups : List (String × List String) :=
  [("home", ["h"]), ("about", ["a"]), ("contact", ["c"])]

/-- A concrete per-group analysis outcome for the orchestrator scenario. -/
def demoAnalyze : String → List String → PageResult :=
  fun k _ => PageResult.failure k "err"

/-- A JSON.parse instance that always fails, as on the spec example
reply that is plain prose. -/
def failParse : String → Except String JsValue :=
  fun _ => Except.error "Unexpected token I in JSON at position 0"

/-- A parsed reply whose queries array holds a null element. -/
def nullElemAnalysis : JsValue :=
  JsValue.obj [("queries", JsValue.arr [JsValue.null]), ("mutations", JsValue.arr [])]

/-- A parsed reply whose queries and mutations fields are plain objects
rather than arrays. -/
def plainObjAnalysis : JsValue :=
  JsValue.obj [("queries", JsValue.obj []), ("mutations", JsValue.obj [])]

/-- The parsed reply of the end-to-end spec scenario for the home group. -/
def homeAnalysis : JsValue :=
  JsValue.obj [("queries", JsValue.arr [JsValue.obj [("name", JsValue.str "GetHome")]]),
               ("mutations", JsValue.arr [])]

/-- A JSON.parse instance returning the home scenario analysis. -/
def homeParse : String → Except String JsValue := fun _ => Except.ok homeAnalysis

/-- A JSON.parse instance returning an object with no fields at all. -/
def emptyObjParse : String → Except String JsValue := fun _ => Except.ok (JsValue.obj [])

theorem isPrefixOf_append_self (xs ys : List Char) : xs.isPrefixOf (xs ++ ys) = true := by
  induction xs with
  | nil => simp [List.isPrefixOf]
  | cons a l ih => simp [List.isPrefixOf, ih]

theorem isSuffixOf_append_self (xs ys : List Char) : ys.isSuffixOf (xs ++ ys) = true := by
  simp [List.isSuffixOf]

theorem strData_append (a b : String) : (a ++ b).data = a.data ++ b.data := rfl

/-- Stripping the fences from a fence-wrapped text recovers the text
exactly, for every text. -/
theorem cleanResponse_fenceWrap (j : String) : cleanResponse (fenceWrap j) = j := by
  have hdata : (fenceWrap j).data = fenceOpen.data ++ (j.data ++ fenceClose.data) := by
    simp [fenceWrap, strData_append]
  have h1 : stripLeadFence (fenceWrap j) = String.mk (j.data ++ fenceClose.data) := by
    rw [stripLeadFence, hdata, isPrefixOf_append_self]
    simp [List.drop_left]
  have h2 : stripTrailFence (String.mk (j.data ++ fenceClose.data)) = j := by
    rw [stripTrailFence]
    have hs : fenceClose.data.isSuffixOf (j.data ++ fenceClose.data) = true :=
      isSuffixOf_append_self _ _
    rw [hs]
    simp only [if_true]
    have hlen : (j.data ++ fenceClose.data).length - fenceClose.data.length
        = j.data.length := by
      simp [List.length_append]
    rw [hlen]
    have : (j.data ++ fenceClose.data).take j.data.length = j.data :=
      List.take_left _ _
    rw [this]
  rw [cleanResponse, h1, h2]

/-- C2: for every valid JSON text j, stripping the fences from the
wrapped string and parsing yields the same value as parsing j directly. -/
theorem fenced_reply_roundtrip (parseJson : String → Except String JsValue)
    (j : String) (v : JsValue) (h : parseJson j = Except.ok v) :
    parseJson (cleanResponse (fenceWrap j)) = Except.ok v := by
  rw [cleanResponse_fenceWrap]
  exact h

/-- Witness for C2 at the valid JSON text null and a concrete parser. -/
theorem fenced_reply_roundtrip_witness :
    toyParse "null" = Except.ok JsValue.null ∧
    toyParse (cleanResponse (fenceWrap "null")) = Except.ok JsValue.null :=
  ⟨rfl, fenced_reply_roundtrip toyParse "null" JsValue.null rfl⟩

theorem analyzeGroupedFilesAux_results {F : Type} (analyze : String → List F → PageResult)
    (all rest : List (String × List F)) :
    (analyzeGroupedFilesAux analyze all rest).1 = rest.map (fun p => analyze p.1 p.2) := by
  induction rest with
  | nil => rfl
  | cons p rest ih =>
      obtain ⟨k, fs⟩ := p
      simp [analyzeGroupedFilesAux, ih]

/-- C3: when the fence-stripped reply text fails JSON.parse, the
per-page analysis returns the error-tagged record for the page instead
of raising, and the loop over grouped items still yields one record per
item. -/
theorem parse_failure_yields_error_record
    (parseJson : String → Except String JsValue) (resp : HttpResponse)
    (page t msg : String)
    (ht : replyTextOf resp = Except.ok (JsValue.str t))
    (hp : parseJson (cleanResponse t) = Except.error msg) :
    analyzePageGraphQL parseJson resp page = PageResult.failure page msg ∧
    ∀ (F : Type) (respOf : String → List F → HttpResponse)
      (groups : List (String × List F)),
      ((analyzeGroupedFiles
          (fun k fs => analyzePageGraphQL parseJson (respOf k fs) k) groups).1).length
        = groups.length := by
  refine ⟨?_, ?_⟩
  · simp [analyzePageGraphQL, ht, hp]
  · intro F respOf groups
    rw [analyzeGroupedFiles, analyzeGroupedFilesAux_results]
    simp

/-- Witness for C3 at the spec example reply that is plain prose. -/
theorem parse_failure_yields_error_record_witness :
    replyTextOf ⟨true, "OK", Except.ok (chatBody (JsValue.str "I cannot answer"))⟩
      = Except.ok (JsValue.str "I cannot answer") ∧
    failParse (cleanResponse "I cannot answer")
      = Except.error "Unexpected token I in JSON at position 0" ∧
    analyzePageGraphQL failParse
        ⟨true, "OK", Except.ok (chatBody (JsValue.str "I cannot answer"))⟩ "home"
      = PageResult.failure "home" "Unexpected token I in JSON at position 0" :=
  ⟨rfl, rfl,
    (parse_failure_yields_error_record failParse
      ⟨true, "OK", Except.ok (chatBody (JsValue.str "I cannot answer"))⟩
      "home" "I cannot answer" "Unexpected token I in JSON at position 0" rfl rfl).1⟩

/-- Counterexample to C7 as stated: with a successful status whose body
is not valid JSON, generateContent still throws, and the message is the
parser message rather than the status text. -/
theorem generateContent_throw_not_only_status :
    generateContent ⟨true, "OK", Except.error "SyntaxError: Unexpected end of JSON input"⟩
      = Except.error "SyntaxError: Unexpected end of JSON input" := rfl

/-- C7 amended: generateContent throws on a non-ok status with a
message carrying only the status text; on an ok status it propagates
the JSON outcome of the body unchanged (so a body that is not JSON also
throws); and the deferred text extraction returns the first choice
message content verbatim, whatever value it is. -/
theorem generateContent_amended (resp : HttpResponse) :
    (resp.ok = false →
      generateContent resp = Except.error ("API call failed: " ++ resp.statusText)) ∧
    (resp.ok = true → generateContent resp = resp.jsonBody) ∧
    (∀ (c : JsValue) (rest : List JsValue),
      textOf (JsValue.obj [("choices", JsValue.arr
          (JsValue.obj [("message", JsValue.obj [("content", c)])] :: rest))])
        = Except.ok c) := by
  refine ⟨fun h => ?_, fun h => ?_, fun c rest => rfl⟩
  · simp [generateContent, h]
  · simp [generateContent, h]

/-- Witness for C7 amended at a throttled and at a successful exchange. -/
theorem generateContent_amended_witness :
    generateContent ⟨false, "Too Many Requests", Except.ok JsValue.null⟩
      = Except.error "API call failed: Too Many Requests" ∧
    generateContent ⟨true, "OK", Except.ok JsValue.null⟩ = Except.ok JsValue.null :=
  ⟨(generateContent_amended ⟨false, "Too Many Requests", Except.ok JsValue.null⟩).1 rfl,
    (generateContent_amended ⟨true, "OK", Except.ok JsValue.null⟩).2.1 rfl⟩

/-- Counterexample to C8 as stated: a reply parsing to an object whose
queries and mutations are both arrays, yet the analysis yields the
error record, because logging reads the name property of the null
element and throws inside the try block. -/
theorem array_fields_with_null_element_fail :
    analyzePageGraphQL (fun _ => Except.ok nullElemAnalysis)
      ⟨true, "OK", Except.ok (chatBody (JsValue.str "x"))⟩ "home"
      = PageResult.failure "home" (typeErrorRead "name" "null") := rfl

theorem getProp_name_ok (e : JsValue) (h1 : e ≠ JsValue.null) (h2 : e ≠ JsValue.undef) :
    ∃ v, getProp e "name" = Except.ok v := by
  cases e with
  | undef => exact absurd rfl h2
  | null => exact absurd rfl h1
  | bool b => exact ⟨_, rfl⟩
  | num n => exact ⟨_, rfl⟩
  | str s => exact ⟨_, rfl⟩
  | arr l => exact ⟨_, rfl⟩
  | obj fs => exact ⟨_, rfl⟩

theorem logEachName_ok (l : List JsValue)
    (h : ∀ e ∈ l, e ≠ JsValue.null ∧ e ≠ JsValue.undef) :
    logEachName l = Except.ok () := by
  induction l with
  | nil => rfl
  | cons e es ih =>
      obtain ⟨v, hv⟩ := getProp_name_ok e (h e (by simp)).1 (h e (by simp)).2
      have hrec := ih (fun x hx => h x (by simp [hx]))
      simp [logEachName, hv, hrec, bind, Except.bind]

theorem getProp_undef_prop (p : String) :
    getProp JsValue.undef p = Except.error (typeErrorRead p "undefined") := rfl

theorem getProp_arr_length (l : List JsValue) :
    getProp (JsValue.arr l) "length" = Except.ok (JsValue.num (l.length : Int)) := rfl

theorem finishAnalysis_arrays (page : String) (a : JsValue) (qs ms : List JsValue)
    (hq : getProp a "queries" = Except.ok (JsValue.arr qs))
    (hm : getProp a "mutations" = Except.ok (JsValue.arr ms))
    (hqe : ∀ e ∈ qs, e ≠ JsValue.null ∧ e ≠ JsValue.undef)
    (hme : ∀ e ∈ ms, e ≠ JsValue.null ∧ e ≠ JsValue.undef) :
    finishAnalysis page a
      = PageResult.success page a (JsValue.num qs.length) (JsValue.num ms.length) := by
  have h1 := logEachName_ok qs hqe
  have h2 := logEachName_ok ms hme
  simp [finishAnalysis, hq, hm, getProp_arr_length, forEachLog, h1, h2,
    bind, Except.bind, pure, Except.pure, Functor.map, Except.map]

/-- C8 amended: when the reply parses to an object whose queries and
mutations are arrays of elements that support property access (no null
or undefined elements), the result is exactly the success record with
the page, the parsed analysis, and the two array lengths as counts. -/
theorem success_record_shape_amended
    (parseJson : String → Except String JsValue) (resp : HttpResponse)
    (page t : String) (a : JsValue) (qs ms : List JsValue)
    (ht : replyTextOf resp = Except.ok (JsValue.str t))
    (hp : parseJson (cleanResponse t) = Except.ok a)
    (hq : getProp a "queries" = Except.ok (JsValue.arr qs))
    (hm : getProp a "mutations" = Except.ok (JsValue.arr ms))
    (hqe : ∀ e ∈ qs, e ≠ JsValue.null ∧ e ≠ JsValue.undef)
    (hme : ∀ e ∈ ms, e ≠ JsValue.null ∧ e ≠ JsValue.undef) :
    analyzePageGraphQL parseJson resp page
      = PageResult.success page a (JsValue.num qs.length) (JsValue.num ms.length) := by
  simp [analyzePageGraphQL, ht, hp,
    finishAnalysis_arrays page a qs ms hq hm hqe hme]

/-- Witness for C8 amended at the end-to-end spec scenario for the
home group. -/
theorem success_record_shape_amended_witness :
    replyTextOf ⟨true, "OK", Except.ok (chatBody (JsValue.str "ok"))⟩
      = Except.ok (JsValue.str "ok") ∧
    homeParse (cleanResponse "ok") = Except.ok homeAnalysis ∧
    analyzePageGraphQL homeParse ⟨true, "OK", Except.ok (chatBody (JsValue.str "ok"))⟩ "home"
      = PageResult.success "home" homeAnalysis (JsValue.num 1) (JsValue.num 0) := by
  refine ⟨rfl, rfl, ?_⟩
  have h := success_record_shape_amended homeParse
    ⟨true, "OK", Except.ok (chatBody (JsValue.str "ok"))⟩ "home" "ok" homeAnalysis
    [JsValue.obj [("name", JsValue.str "GetHome")]] [] rfl rfl rfl rfl
    (by intro e he; simp at he; subst he; exact ⟨by simp, by simp⟩)
    (by intro e he; simp at he)
  simpa using h

/-- Counterexample to C10 as stated: a reply parsing to an object whose
queries and mutations fields are plain objects, hence not array-valued,
still produces a success record; the length reads yield undefined
without throwing, so the stored counts are undefined. -/
theorem non_array_fields_can_succeed :
    analyzePageGraphQL (fun _ => Except.ok plainObjAnalysis)
      ⟨true, "OK", Except.ok (chatBody (JsValue.str "x"))⟩ "home"
      = PageResult.success "home" plainObjAnalysis JsValue.undef JsValue.undef := rfl

/-- C10 amended: when the parsed reply has no queries field at all (the
property access yields undefined), reading its length throws inside the
try block, the catch yields the same page-and-error record shape as a
parse failure, and the loop over grouped items still yields one record
per item. -/
theorem undefined_queries_field_yields_error_record
    (parseJson : String → Except String JsValue) (resp : HttpResponse)
    (page t : String) (a : JsValue)
    (ht : replyTextOf resp = Except.ok (JsValue.str t))
    (hp : parseJson (cleanResponse t) = Except.ok a)
    (hq : getProp a "queries" = Except.ok JsValue.undef) :
    analyzePageGraphQL parseJson resp page
      = PageResult.failure page (typeErrorRead "length" "undefined") ∧
    ∀ (F : Type) (respOf : String → List F → HttpResponse)
      (groups : List (String × List F)),
      ((analyzeGroupedFiles
          (fun k fs => analyzePageGraphQL parseJson (respOf k fs) k) groups).1).length
        = groups.length := by
  refine ⟨?_, ?_⟩
  · simp [analyzePageGraphQL, ht, hp, finishAnalysis, hq, getProp_undef_prop,
      bind, Except.bind]
  · intro F respOf groups
    rw [analyzeGroupedFiles, analyzeGroupedFilesAux_results]
    simp

/-- Witness for C10 amended at a reply parsing to an empty object. -/
theorem undefined_queries_field_yields_error_record_witness :
    replyTextOf ⟨true, "OK", Except.ok (chatBody (JsValue.str "x"))⟩
      = Except.ok (JsValue.str "x") ∧
    emptyObjParse (cleanResponse "x") = Except.ok (JsValue.obj []) ∧
    analyzePageGraphQL emptyObjParse
        ⟨true, "OK", Except.ok (chatBody (JsValue.str "x"))⟩ "home"
      = PageResult.failure "home" (typeErrorRead "length" "undefined") :=
  ⟨rfl, rfl,
    (undefined_queries_field_yields_error_record emptyObjParse
      ⟨true, "OK", Except.ok (chatBody (JsValue.str "x"))⟩
      "home" "x" (JsValue.obj []) rfl rfl rfl).1⟩

mutual
theorem findInEntry_eq : ∀ (p : String) (e : FSEntry),
    findInEntry p e
      = ((allInEntry p e).filter (fun f => qualifiesFile f.name f.content)).map SrcFile.path
  | p, .file n c => by
      by_cases h : qualifiesFile n c = true
      · simp [findInEntry, allInEntry, h]
      · simp [findInEntry, allInEntry, h]
  | p, .dir n es => by
      simpa [findInEntry, allInEntry] using findInEntries_eq (pathJoin p n) es

theorem findInEntries_eq : ∀ (p : String) (es : FSEntries),
    findInEntries p es
      = ((allInEntries p es).filter (fun f => qualifiesFile f.name f.content)).map SrcFile.path
  | _, .nil => rfl
  | p, .cons e es => by
      simp [findInEntries, allInEntries, List.filter_append,
        findInEntry_eq p e, findInEntries_eq p es]
end

/-- C1: the scanner returns exactly the paths of the files whose name
has a recognized extension and whose content contains a marker, in
traversal order; in particular its count is the number of such files,
whatever the number of other files in the tree. -/
theorem scanner_returns_exactly_matching (root : String) (tree : FSEntries) :
    findGraphQLFiles root tree
      = ((allFiles root tree).filter (fun f => qualifiesFile f.name f.content)).map SrcFile.path ∧
    (findGraphQLFiles root tree).length
      = (allFiles root tree).countP (fun f => qualifiesFile f.name f.content) := by
  refine ⟨findInEntries_eq root tree, ?_⟩
  rw [findGraphQLFiles, findInEntries_eq root tree]
  simp [allFiles, List.countP_eq_length_filter]

theorem mem_firstKeys (a : String) (l : List String) : a ∈ firstKeys l ↔ a ∈ l := by
  induction l with
  | nil => simp [firstKeys]
  | cons k ks ih =>
      by_cases h : a = k
      · subst h
        simp [firstKeys]
      · simp [firstKeys, h, ih]

theorem firstKeys_nodup (l : List String) : (firstKeys l).Nodup := by
  induction l with
  | nil => simp [firstKeys]
  | cons k ks ih =>
      rw [firstKeys]
      refine List.Nodup.cons ?_ (List.Nodup.filter _ ih)
      intro hmem
      have := List.of_mem_filter hmem
      simp at this

theorem firstKeys_append_singleton (l : List String) (k : String) :
    firstKeys (l ++ [k]) = if k ∈ l then firstKeys l else firstKeys l ++ [k] := by
  induction l with
  | nil => simp [firstKeys]
  | cons a l ih =>
      have hcons : firstKeys ((a :: l) ++ [k])
          = a :: (firstKeys (l ++ [k])).filter (fun b => b != a) := rfl
      have hcons2 : firstKeys (a :: l)
          = a :: (firstKeys l).filter (fun b => b != a) := rfl
      rw [hcons, hcons2, ih]
      by_cases h : k ∈ l
      · simp [h]
      · by_cases hak : k = a
        · subst hak
          simp [h, List.filter_append]
        · have hnm : k ∉ a :: l := by simp [h, hak]
          rw [if_neg h, if_neg hnm, List.filter_append]
          simp [bne_iff_ne, hak]

theorem insertGroup_of_not_mem (m : List (String × List (List String)))
    (k : String) (f : List String) (h : k ∉ m.map Prod.fst) :
    insertGroup m k f = m ++ [(k, [f])] := by
  induction m with
  | nil => rfl
  | cons p m ih =>
      obtain ⟨k₀, g⟩ := p
      have hk : k₀ ≠ k := by
        intro he
        exact h (by simp [he])
      simp only [insertGroup, if_neg hk]
      rw [ih (fun hm => h (by simp [hm]))]
      simp

theorem insertGroup_map_of_mem (kl : List String) (G : String → List (List String))
    (k : String) (f : List String) (hnd : kl.Nodup) (hk : k ∈ kl) :
    insertGroup (kl.map fun a => (a, G a)) k f
      = kl.map fun a => (a, if a = k then G a ++ [f] else G a) := by
  induction kl with
  | nil => simp at hk
  | cons a kl ih =>
      rw [List.nodup_cons] at hnd
      rw [List.map_cons, List.map_cons]
      simp only [insertGroup]
      by_cases hak : a = k
      · subst hak
        rw [if_pos rfl, if_pos rfl]
        congr 1
        refine (List.map_congr_left ?_).symm
        intro b hb
        have hba : ¬b = a := fun he => hnd.1 (he ▸ hb)
        rw [if_neg hba]
      · rw [if_neg hak, if_neg hak]
        have hkl : k ∈ kl := by
          rcases List.mem_cons.mp hk with h1 | h1
          · exact absurd h1.symm hak
          · exact h1
        rw [ih hnd.2 hkl]

theorem canonicalGroups_keys (files : List (List String)) (pagesPath : List String) :
    (canonicalGroups files pagesPath).map Prod.fst
      = firstKeys (files.map (groupKey pagesPath)) := by
  simp [canonicalGroups, List.map_map, Function.comp_def]

theorem group_eq_canonical (files : List (List String)) (pagesPath : List String) :
    groupFilesByPagesFolder files pagesPath = canonicalGroups files pagesPath := by
  induction files using List.reverseRecOn with
  | nil => rfl
  | append_singleton xs f ih =>
      have hfold : groupFilesByPagesFolder (xs ++ [f]) pagesPath
          = insertGroup (groupFilesByPagesFolder xs pagesPath)
              (groupKey pagesPath f) f := by
        rw [groupFilesByPagesFolder, groupFilesByPagesFolder, List.foldl_append]
        rfl
      rw [hfold, ih]
      set kk := groupKey pagesPath f with hkk
      have hmapapp : (xs ++ [f]).map (groupKey pagesPath)
          = xs.map (groupKey pagesPath) ++ [kk] := by simp
      by_cases hmem : kk ∈ xs.map (groupKey pagesPath)
      · have hfk : kk ∈ firstKeys (xs.map (groupKey pagesPath)) :=
          (mem_firstKeys _ _).mpr hmem
        rw [canonicalGroups, insertGroup_map_of_mem _ _ _ _ (firstKeys_nodup _) hfk,
          canonicalGroups, hmapapp, firstKeys_append_singleton, if_pos hmem]
        refine List.map_congr_left ?_
        intro b hb
        rw [List.filter_append]
        by_cases hbk : b = kk
        · subst hbk
          simp
        · have : ¬(groupKey pagesPath f == b) = true := by
            simp [hkk.symm, Ne.symm hbk]
          simp [hbk, List.filter_cons, this]
      · have hfk : kk ∉ firstKeys (xs.map (groupKey pagesPath)) :=
          fun hc => hmem ((mem_firstKeys _ _).mp hc)
        have hkeys : kk ∉ (canonicalGroups xs pagesPath).map Prod.fst := by
          rw [canonicalGroups_keys]
          exact hfk
        rw [insertGroup_of_not_mem _ _ _ hkeys, canonicalGroups, canonicalGroups,
          hmapapp, firstKeys_append_singleton, if_neg hmem, List.map_append]
        congr 1
        · refine List.map_congr_left ?_
          intro b hb
          have hbmem : b ∈ xs.map (groupKey pagesPath) := (mem_firstKeys _ _).mp hb
          have hbk : b ≠ kk := fun he => hmem (he ▸ hbmem)
          rw [List.filter_append]
          have : ¬(groupKey pagesPath f == b) = true := by
            simp [hkk.symm, Ne.symm hbk]
          simp [List.filter_cons, this]
        · have hnil : xs.filter (fun x => groupKey pagesPath x == kk) = [] := by
            rw [List.filter_eq_nil_iff]
            intro x hx hbeq
            exact hmem (by
              have : groupKey pagesPath x = kk := by simpa using hbeq
              exact this ▸ List.mem_map_of_mem (groupKey pagesPath) hx)
          simp [List.filter_append, hnil]

/-- C4: the grouper assigns every file to the group keyed by the first
segment of its path relative to the pages root (files outside the root
included, their key then starting with double dots), each group holding
exactly the input files with its key in input encounter order, the keys
being pairwise distinct so every file lands in exactly one group. -/
theorem grouper_assigns_by_first_segment (files : List (List String))
    (pagesPath : List String) :
    (∀ k g, (k, g) ∈ groupFilesByPagesFolder files pagesPath →
        g = files.filter (fun f => groupKey pagesPath f == k)) ∧
    ((groupFilesByPagesFolder files pagesPath).map Prod.fst).Nodup ∧
    (∀ f ∈ files, groupKey pagesPath f
        ∈ (groupFilesByPagesFolder files pagesPath).map Prod.fst) := by
  rw [group_eq_canonical]
  refine ⟨?_, ?_, ?_⟩
  · intro k g hmem
    rw [canonicalGroups] at hmem
    obtain ⟨a, _, hag⟩ := List.mem_map.mp hmem
    obtain ⟨rfl, rfl⟩ := Prod.mk.injEq .. ▸ hag
    rfl
  · rw [canonicalGroups_keys]
    exact firstKeys_nodup _
  · intro f hf
    rw [canonicalGroups_keys, mem_firstKeys]
    exact List.mem_map_of_mem _ hf

theorem firstKeys_const_append (b : List String) (k : String) (rest : List String)
    (hne : b ≠ []) (hall : ∀ x ∈ b, x = k) :
    firstKeys (b ++ rest) = k :: (firstKeys rest).filter (fun a => a != k) := by
  induction b with
  | nil => exact absurd rfl hne
  | cons x b ih =>
      have hx : x = k := hall x (by simp)
      subst hx
      by_cases hb : b = []
      · subst hb
        rfl
      · have hrec := ih hb (fun y hy => hall y (by simp [hy]))
        have hcons : firstKeys ((x :: b) ++ rest)
            = x :: (firstKeys (b ++ rest)).filter (fun a => a != x) := rfl
        rw [hcons, hrec]
        simp [List.filter_filter]

theorem firstKeys_blocks (ks : List String) (B : String → List String)
    (hnd : ks.Nodup) (hne : ∀ k ∈ ks, B k ≠ [])
    (hall : ∀ k ∈ ks, ∀ x ∈ B k, x = k) :
    firstKeys ((ks.map B).flatten) = ks := by
  induction ks with
  | nil => rfl
  | cons k ks ih =>
      rw [List.nodup_cons] at hnd
      rw [List.map_cons, List.flatten_cons,
        firstKeys_const_append (B k) k _ (hne k (by simp)) (hall k (by simp)),
        ih hnd.2 (fun a ha => hne a (by simp [ha])) (fun a ha => hall a (by simp [ha]))]
      congr 1
      rw [List.filter_eq_self]
      intro a ha
      simp only [bne_iff_ne, ne_eq, decide_eq_true_eq]
      exact fun he => hnd.1 (he ▸ ha)

theorem filter_blocks (ks : List String) (B : String → List (List String))
    (gk : List String → String) (hnd : ks.Nodup)
    (hall : ∀ j ∈ ks, ∀ x ∈ B j, gk x = j) (k : String) (hk : k ∈ ks) :
    ((ks.map B).flatten).filter (fun x => gk x == k) = B k := by
  induction ks with
  | nil => simp at hk
  | cons j ks ih =>
      rw [List.nodup_cons] at hnd
      rw [List.map_cons, List.flatten_cons, List.filter_append]
      by_cases hjk : j = k
      · subst hjk
        have h1 : (B j).filter (fun x => gk x == j) = B j := by
          rw [List.filter_eq_self]
          intro x hx
          simp [hall j (by simp) x hx]
        have h2 : ((ks.map B).flatten).filter (fun x => gk x == j) = [] := by
          rw [List.filter_eq_nil_iff]
          intro x hx hbeq
          obtain ⟨l, hl, hxl⟩ := List.mem_flatten.mp hx
          obtain ⟨j2, hj2, rfl⟩ := List.mem_map.mp hl
          have hx2 : gk x = j2 := hall j2 (by simp [hj2]) x hxl
          have hxj : gk x = j := by simpa using hbeq
          exact hnd.1 ((hx2.symm.trans hxj) ▸ hj2)
        rw [h1, h2, List.append_nil]
      · have hkks : k ∈ ks := by
          rcases List.mem_cons.mp hk with h1 | h1
          · exact absurd h1.symm hjk
          · exact h1
        have h0 : (B j).filter (fun x => gk x == k) = [] := by
          rw [List.filter_eq_nil_iff]
          intro x hx hbeq
          have hxj : gk x = j := hall j (by simp) x hx
          have hxk : gk x = k := by simpa using hbeq
          exact hjk (hxj.symm.trans hxk)
        rw [h0, List.nil_append,
          ih hnd.2 (fun a ha => hall a (by simp [ha])) hkks]

/-- C5: regrouping the concatenation of the sequences of a produced
grouping through the same relativization rule reproduces the original
grouping exactly. -/
theorem grouper_idempotent (files : List (List String)) (pagesPath : List String) :
    groupFilesByPagesFolder
        (flattenGroups (groupFilesByPagesFolder files pagesPath)) pagesPath
      = groupFilesByPagesFolder files pagesPath := by
  rw [group_eq_canonical files pagesPath, group_eq_canonical]
  have hflat : flattenGroups (canonicalGroups files pagesPath)
      = ((firstKeys (files.map (groupKey pagesPath))).map
          (fun k => files.filter (fun f => groupKey pagesPath f == k))).flatten := by
    simp [flattenGroups, canonicalGroups, List.map_map, Function.comp_def]
  rw [hflat]
  simp only [canonicalGroups]
  have hblock : ∀ j ∈ firstKeys (files.map (groupKey pagesPath)),
      ∀ x ∈ files.filter (fun f => groupKey pagesPath f == j), groupKey pagesPath x = j := by
    intro j _ x hx
    have := List.of_mem_filter hx
    simpa using this
  have hne : ∀ k ∈ firstKeys (files.map (groupKey pagesPath)),
      (files.filter (fun f => groupKey pagesPath f == k)).map (groupKey pagesPath) ≠ [] := by
    intro k hkmem
    have hkm : k ∈ files.map (groupKey pagesPath) := (mem_firstKeys _ _).mp hkmem
    obtain ⟨f, hf, hgf⟩ := List.mem_map.mp hkm
    have hmemf : f ∈ files.filter (fun x => groupKey pagesPath x == k) :=
      List.mem_filter.mpr ⟨hf, by simp [hgf]⟩
    rw [ne_eq, List.map_eq_nil_iff]
    exact List.ne_nil_of_mem hmemf
  have hkeys : firstKeys ((((firstKeys (files.map (groupKey pagesPath))).map
        (fun k => files.filter (fun f => groupKey pagesPath f == k))).flatten).map
          (groupKey pagesPath))
      = firstKeys (files.map (groupKey pagesPath)) := by
    rw [List.map_flatten, List.map_map]
    have hcomp : (List.map (groupKey pagesPath) ∘
          fun k => files.filter (fun f => groupKey pagesPath f == k))
        = fun k => (files.filter (fun f => groupKey pagesPath f == k)).map
            (groupKey pagesPath) := rfl
    rw [hcomp]
    refine firstKeys_blocks _ _ (firstKeys_nodup _) hne ?_
    intro k hkmem x hx
    obtain ⟨f, hf, rfl⟩ := List.mem_map.mp hx
    exact hblock k hkmem f hf
  rw [hkeys]
  refine List.map_congr_left ?_
  intro k hkmem
  rw [filter_blocks _ _ (groupKey pagesPath) (firstKeys_nodup _) hblock k hkmem]

theorem indexOf_append_cons (pre : List String) (k : String) (post : List String)
    (h : k ∉ pre) : List.indexOf k (pre ++ k :: post) = pre.length := by
  induction pre with
  | nil => simp
  | cons a pre ih =>
      have hak : a ≠ k := fun he => h (by simp [he])
      rw [List.cons_append, List.indexOf_cons_ne _ hak,
        ih (fun hm => h (by simp [hm]))]
      rfl

theorem analyzeGroupedFilesAux_events {F : Type} (analyze : String → List F → PageResult)
    (all : List (String × List F)) (hnd : (all.map Prod.fst).Nodup) :
    ∀ (rest pre : List (String × List F)), all = pre ++ rest →
      (analyzeGroupedFilesAux analyze all rest).2
        = List.intersperse (Event.delayEv 10000)
            (rest.map (fun p => Event.callEv p.1)) := by
  intro rest
  induction rest with
  | nil =>
      intro pre _
      rfl
  | cons p rest ih =>
      intro pre hall
      obtain ⟨k, fs⟩ := p
      have hkeys : all.map Prod.fst = pre.map Prod.fst ++ k :: rest.map Prod.fst := by
        rw [hall]
        simp
      have hknot : k ∉ pre.map Prod.fst := by
        rw [hkeys] at hnd
        have hmid := List.nodup_middle.mp hnd
        rw [List.nodup_cons] at hmid
        intro hm
        exact hmid.1 (by simp [hm])
      have hidx : List.indexOf k (all.map Prod.fst) = pre.length := by
        rw [hkeys, indexOf_append_cons _ _ _ hknot, List.length_map]
      have hlen : all.length = pre.length + rest.length + 1 := by
        rw [hall]
        simp only [List.length_append, List.length_cons]
        omega
      cases rest with
      | nil =>
          have hcond : ¬(List.indexOf k (all.map Prod.fst) < all.length - 1) := by
            rw [hidx, hlen]
            simp
          simp [analyzeGroupedFilesAux, hcond, List.intersperse]
      | cons q rest2 =>
          have hcond : List.indexOf k (all.map Prod.fst) < all.length - 1 := by
            rw [hidx, hlen]
            simp only [List.length_cons]
            omega
          have hrec := ih (pre ++ [(k, fs)]) (by rw [hall]; simp)
          have hstep : (analyzeGroupedFilesAux analyze all ((k, fs) :: q :: rest2)).2
              = Event.callEv k ::
                  ((if List.indexOf k (List.map Prod.fst all) < all.length - 1 then
                      [Event.delayEv 10000] else [])
                    ++ (analyzeGroupedFilesAux analyze all (q :: rest2)).2) := rfl
          rw [hstep, if_pos hcond, hrec]
          rfl

theorem countP_intersperse_elems {α : Type} (sep : α) (p : α → Bool) (hs : p sep = false) :
    ∀ (l : List α), (∀ a ∈ l, p a = true) →
      (List.intersperse sep l).countP p = l.length
  | [], _ => rfl
  | [a], h => by
      have ha := h a (by simp)
      simp [List.intersperse, List.countP_cons, ha]
  | a :: b :: l, h => by
      have hrec := countP_intersperse_elems sep p hs (b :: l)
        (fun x hx => h x (by simp at hx ⊢; tauto))
      have ha := h a (by simp)
      simp only [List.intersperse, List.countP_cons, hrec, ha, hs]
      simp

theorem countP_intersperse_sep {α : Type} (sep : α) (p : α → Bool) (hs : p sep = true) :
    ∀ (l : List α), (∀ a ∈ l, p a = false) →
      (List.intersperse sep l).countP p = l.length - 1
  | [], _ => rfl
  | [a], h => by
      have ha := h a (by simp)
      simp [List.intersperse, List.countP_cons, ha]
  | a :: b :: l, h => by
      have hrec := countP_intersperse_sep sep p hs (b :: l)
        (fun x hx => h x (by simp at hx ⊢; tauto))
      have ha := h a (by simp)
      simp only [List.intersperse, List.countP_cons, hrec, ha, hs]
      simp

/-- C6: over N ≥ 1 groups carrying the pairwise-distinct keys an object
guarantees, the loop produces one result per group in discovery order,
its effect trace is exactly the call events in discovery order with one
fixed delay strictly between consecutive calls, so the client is
invoked exactly N times and the delay happens exactly N - 1 times,
never after the final group. -/
theorem orchestrator_calls_and_delays {F : Type}
    (analyze : String → List F → PageResult) (groups : List (String × List F))
    (hnd : (groups.map Prod.fst).Nodup) (hlen : 1 ≤ groups.length) :
    (analyzeGroupedFiles analyze groups).1 = groups.map (fun p => analyze p.1 p.2) ∧
    (analyzeGroupedFiles analyze groups).2
      = List.intersperse (Event.delayEv 10000)
          (groups.map (fun p => Event.callEv p.1)) ∧
    (analyzeGroupedFiles analyze groups).2.countP Event.isCall = groups.length ∧
    (analyzeGroupedFiles analyze groups).2.countP Event.isDelay = groups.length - 1 := by
  have hres : (analyzeGroupedFiles analyze groups).1
      = groups.map (fun p => analyze p.1 p.2) :=
    analyzeGroupedFilesAux_results analyze groups groups
  have hev : (analyzeGroupedFiles analyze groups).2
      = List.intersperse (Event.delayEv 10000)
          (groups.map (fun p => Event.callEv p.1)) :=
    analyzeGroupedFilesAux_events analyze groups hnd groups [] rfl
  refine ⟨hres, hev, ?_, ?_⟩
  · rw [hev, countP_intersperse_elems _ _ rfl _ ?_]
    · simp
    · intro a ha
      obtain ⟨p, _, rfl⟩ := List.mem_map.mp ha
      rfl
  · rw [hev, countP_intersperse_sep _ _ rfl _ ?_]
    · simp
    · intro a ha
      obtain ⟨p, _, rfl⟩ := List.mem_map.mp ha
      rfl

/-- Witness for C6 at the three-group spec scenario: three calls with
the two delays strictly between them. -/
theorem orchestrator_calls_and_delays_witness :
    (analyzeGroupedFiles demoAnalyze demoGroups).2
      = [Event.callEv "home", Event.delayEv 10000, Event.callEv "about",
         Event.delayEv 10000, Event.callEv "contact"] :=
  ((orchestrator_calls_and_delays demoAnalyze demoGroups
      (by decide) (by decide)).2.1).trans rfl

/-- C9: the run aggregates exactly one record per processed item, in
processing order — whatever mix of success and error records the items
produce, the all-errors case included — and writes the aggregated
sequence exactly once, at the end of the run. -/
theorem run_aggregates_and_writes_once {F : Type}
    (analyze : String → List F → PageResult) (groups : List (String × List F)) :
    (mainRun analyze groups).results = groups.map (fun p => analyze p.1 p.2) ∧
    (mainRun analyze groups).results.length = groups.length ∧
    (mainRun analyze groups).written = [(mainRun analyze groups).results] := by
  have hres : (mainRun analyze groups).results
      = groups.map (fun p => analyze p.1 p.2) :=
    analyzeGroupedFilesAux_results analyze groups groups
  refine ⟨hres, ?_, rfl⟩
  rw [hres]
  simp

end GPA
